import Mathlib

/-!
# Shallow embedding of `nbitmap` (`src/lib.rs`)

The Rust crate implements a fixed-capacity bitmap over a `Vec<u64>`.
We embed it as follows:

* `usize` arithmetic is modelled as 64-bit wrapping natural-number
  arithmetic (`% 2 ^ 64` where the Rust code can overflow), i.e. the
  semantics of a release build on a 64-bit target.  Bit operations
  (`>>`, `&`, `|`) on values `< 2 ^ 64` coincide with `Nat`'s
  `>>>`, `&&&`, `|||`.
* `Vec<u64>` becomes `List Nat`; the words produced by the code are
  always `< 2 ^ 64`, and `1u64 << mask_bit` is written
  `(1 <<< mask_bit) % 2 ^ 64` (the shift amount is `< 64` in every
  reachable state, so the `%` is the identity there).
* a Rust `assert!` / panic becomes `Option`: `none` is the fatal
  precondition failure, `some` the normal return.
* indexing `self.bitmap[k]` is embedded as `List.getD _ k 0` /
  `List.set`; the in-bounds property of every such access is proved
  separately (claim C9).
-/

/-- Rust `const MIN_BITMAP_SIZE: usize = 64;` -/
def MIN_BITMAP_SIZE : Nat := 64

/-- The `Bitmap` struct of `src/lib.rs`. -/
structure Bitmap where
  rounded_size : Nat
  mask : Nat
  log_sz : Nat
  bitmap : List Nat
  start_bit : Nat
deriving DecidableEq

/-- Rust `fn roundup_pow_of_two(x: usize) -> usize` — the bit-fill trick.
The fills stop at `x >> 16`, exactly as in the source (there is no
`x |= x >> 32` step).  `x - 1` and `x + 1` wrap modulo `2 ^ 64`. -/
def Bitmap.roundup_pow_of_two (x : Nat) : Nat :=
  let x1 := (x + (2 ^ 64 - 1)) % 2 ^ 64
  let x2 := x1 ||| (x1 >>> 1)
  let x3 := x2 ||| (x2 >>> 2)
  let x4 := x3 ||| (x3 >>> 4)
  let x5 := x4 ||| (x4 >>> 8)
  let x6 := x5 ||| (x5 >>> 16)
  (x6 + 1) % 2 ^ 64

/-- Rust `pub fn new(size: usize) -> Self`. -/
def Bitmap.new (size : Nat) : Bitmap :=
  let size := if size < MIN_BITMAP_SIZE then MIN_BITMAP_SIZE else size
  let rounded_size := Bitmap.roundup_pow_of_two size
  let log_sz : Nat := 6
  let mask : Nat := 0x3f
  let bitmap_size :=
    (rounded_size >>> log_sz) + (if rounded_size &&& mask ≠ 0 then 1 else 0)
  { rounded_size := rounded_size, mask := mask, log_sz := log_sz,
    start_bit := 0, bitmap := List.replicate bitmap_size 0 }

/-- Rust `pub fn new_with_reserved(size: usize, reserved_space: usize) -> Self`;
`assert!(reserved_space < size)` is the `none` branch. -/
def Bitmap.new_with_reserved (size reserved_space : Nat) : Option Bitmap :=
  if reserved_space < size then
    some { Bitmap.new size with start_bit := reserved_space }
  else
    none

/-- Rust `pub fn set_bit(&mut self, bit: usize)`;
`assert!(bit < self.rounded_size)` is the `none` branch. -/
def Bitmap.set_bit (m : Bitmap) (bit : Nat) : Option Bitmap :=
  if bit < m.rounded_size then
    let selected_mask := bit >>> m.log_sz
    let mask_bit := bit &&& m.mask
    let w := (m.bitmap.getD selected_mask 0) ||| ((1 <<< mask_bit) % 2 ^ 64)
    some { m with bitmap := m.bitmap.set selected_mask w }
  else
    none

/-- Rust `pub fn unset_bit(&mut self, bit: usize)`;
`!(1u64 << mask_bit)` is complement inside 64 bits, i.e. xor with
`2 ^ 64 - 1`. -/
def Bitmap.unset_bit (m : Bitmap) (bit : Nat) : Option Bitmap :=
  if bit < m.rounded_size then
    let selected_mask := bit >>> m.log_sz
    let mask_bit := bit &&& m.mask
    let w := (m.bitmap.getD selected_mask 0) &&&
      ((2 ^ 64 - 1) ^^^ ((1 <<< mask_bit) % 2 ^ 64))
    some { m with bitmap := m.bitmap.set selected_mask w }
  else
    none

/-- Rust `pub fn is_set(&self, bit: usize) -> bool`. -/
def Bitmap.is_set (m : Bitmap) (bit : Nat) : Option Bool :=
  if bit < m.rounded_size then
    some ((((m.bitmap.getD (bit >>> m.log_sz) 0) >>> (bit &&& m.mask)) &&& 1) == 1)
  else
    none

/-- The loop body of `find_free_slot`: scan `cnt` bit positions starting
at `bit`, returning the first whose stored bit is `0`. -/
def Bitmap.scanFree (m : Bitmap) : Nat → Nat → Option Nat
  | _, 0 => none
  | bit, cnt + 1 =>
    if ((m.bitmap.getD (bit >>> m.log_sz) 0) >>> (bit &&& m.mask)) &&& 1 = 0 then
      some bit
    else
      m.scanFree (bit + 1) cnt

/-- Rust `pub fn find_free_slot(&self) -> Option<usize>` — the Rust
`for bit in self.start_bit..self.rounded_size` loop. -/
def Bitmap.find_free_slot (m : Bitmap) : Option Nat :=
  m.scanFree m.start_bit (m.rounded_size - m.start_bit)

/-- Rust `pub fn bit_size(&self) -> usize`. -/
def Bitmap.bit_size (m : Bitmap) : Nat :=
  m.rounded_size

/-- Rust `pub fn size(&self) -> usize`. -/
def Bitmap.size (m : Bitmap) : Nat :=
  m.bitmap.length

/-- Structural well-formedness: the two constant fields hold their
construction-time values and the word vector has the length the
constructor computed from `rounded_size`.  Every bitmap produced by
`new` / `new_with_reserved` and the mutators satisfies it
(`Bitmap.reached_WF`). -/
def Bitmap.WF (m : Bitmap) : Prop :=
  m.log_sz = 6 ∧ m.mask = 63 ∧
    m.bitmap.length =
      (m.rounded_size >>> 6) + (if m.rounded_size &&& 63 ≠ 0 then 1 else 0)

instance (m : Bitmap) : Decidable m.WF := by
  unfold Bitmap.WF
  exact inferInstance

/-- The bitmaps produced by the public API: the two constructors
followed by any sequence of successful mutations. -/
inductive Bitmap.Reached : Bitmap → Prop
  | new (s : Nat) : Bitmap.Reached (Bitmap.new s)
  | new_with_reserved (s r : Nat) (m : Bitmap) :
      Bitmap.new_with_reserved s r = some m → Bitmap.Reached m
  | set_bit (m m' : Bitmap) (i : Nat) :
      Bitmap.Reached m → m.set_bit i = some m' → Bitmap.Reached m'
  | unset_bit (m m' : Bitmap) (i : Nat) :
      Bitmap.Reached m → m.unset_bit i = some m' → Bitmap.Reached m'

/-! ## Helper lemmas about the fixed word geometry (`log_sz = 6`, `mask = 63`) -/

theorem land63_eq_mod (n : Nat) : n &&& 63 = n % 64 := by
  have h := Nat.and_pow_two_sub_one_eq_mod n 6
  norm_num at h
  exact h

theorem shiftRight6_eq_div (n : Nat) : n >>> 6 = n / 64 := by
  have h := Nat.shiftRight_eq_div_pow n 6
  norm_num at h
  exact h

theorem land63_lt (n : Nat) : n &&& 63 < 64 := by
  rw [land63_eq_mod]
  exact Nat.mod_lt _ (by norm_num)

theorem bit_decomp (b : Nat) : b = 64 * (b >>> 6) + (b &&& 63) := by
  rw [shiftRight6_eq_div, land63_eq_mod]
  omega

theorem shift_one_mod (off : Nat) (h : off < 64) : (1 <<< off) % 2 ^ 64 = 2 ^ off := by
  rw [Nat.one_shiftLeft]
  exact Nat.mod_eq_of_lt (Nat.pow_lt_pow_right (by norm_num) h)

/-- The raw bit read `(w >> off) & 1`, compared with `1` as the code does,
is exactly `Nat.testBit`. -/
theorem read_eq_testBit (w off : Nat) : (((w >>> off) &&& 1) == 1) = w.testBit off := by
  rw [Nat.and_one_is_mod, Nat.shiftRight_eq_div_pow, Nat.testBit_to_div_mod]
  rcases Nat.mod_two_eq_zero_or_one (w / 2 ^ off) with h | h <;> simp [h]

theorem read_ne_zero_iff (w off : Nat) :
    ((w >>> off) &&& 1 ≠ 0) ↔ w.testBit off = true := by
  have h1 : (w >>> off) &&& 1 ≤ 1 := Nat.and_le_right
  have h2 := read_eq_testBit w off
  rcases Nat.le_one_iff_eq_zero_or_eq_one.mp h1 with h | h <;> simp [h] at h2 ⊢ <;> simp [← h2]

/-! ## Helper lemmas about `List.getD` and `List.set` -/

theorem getD_set_self (l : List Nat) (i v : Nat) (h : i < l.length) :
    (l.set i v).getD i 0 = v := by
  simp [List.getD_eq_getElem?_getD, List.getElem?_set_self h]

theorem getD_set_ne (l : List Nat) (i j v : Nat) (h : i ≠ j) :
    (l.set i v).getD j 0 = l.getD j 0 := by
  simp [List.getD_eq_getElem?_getD, List.getElem?_set_ne h]

/-! ## Well-formedness of constructed bitmaps -/

theorem WF_new (s : Nat) : (Bitmap.new s).WF := by
  simp [Bitmap.new, Bitmap.WF, List.length_replicate]

theorem WF_new_with_reserved (s r : Nat) (m : Bitmap)
    (h : Bitmap.new_with_reserved s r = some m) : m.WF := by
  unfold Bitmap.new_with_reserved at h
  split at h
  · cases h
    exact WF_new s
  · cases h

theorem WF_set_bit (m m' : Bitmap) (i : Nat) (hWF : m.WF)
    (h : m.set_bit i = some m') : m'.WF := by
  unfold Bitmap.set_bit at h
  split at h
  · cases h
    obtain ⟨h1, h2, h3⟩ := hWF
    exact ⟨h1, h2, by simpa [List.length_set] using h3⟩
  · cases h

theorem WF_unset_bit (m m' : Bitmap) (i : Nat) (hWF : m.WF)
    (h : m.unset_bit i = some m') : m'.WF := by
  unfold Bitmap.unset_bit at h
  split at h
  · cases h
    obtain ⟨h1, h2, h3⟩ := hWF
    exact ⟨h1, h2, by simpa [List.length_set] using h3⟩
  · cases h

theorem reached_WF (m : Bitmap) (h : Bitmap.Reached m) : m.WF := by
  induction h with
  | new s => exact WF_new s
  | new_with_reserved s r m hm => exact WF_new_with_reserved s r m hm
  | set_bit m m' i _ hm ih => exact WF_set_bit m m' i ih hm
  | unset_bit m m' i _ hm ih => exact WF_unset_bit m m' i ih hm

/-- Under `WF`, the word index of a valid bit index is inside the word list. -/
theorem word_index_lt (m : Bitmap) (hWF : m.WF) (i : Nat) (hi : i < m.rounded_size) :
    i >>> m.log_sz < m.bitmap.length := by
  obtain ⟨h1, _, h3⟩ := hWF
  rw [h1, h3, shiftRight6_eq_div, shiftRight6_eq_div, land63_eq_mod]
  by_cases h : m.rounded_size % 64 = 0 <;> simp [h] <;> omega

/-! ## Characterizations of `is_set` and `scanFree` -/

theorem is_set_eq_testBit (m : Bitmap) (b : Nat) (hb : b < m.rounded_size) :
    m.is_set b = some ((m.bitmap.getD (b >>> m.log_sz) 0).testBit (b &&& m.mask)) := by
  unfold Bitmap.is_set
  rw [if_pos hb, read_eq_testBit]

theorem is_set_eq_read (m : Bitmap) (b : Nat) (hb : b < m.rounded_size) :
    m.is_set b =
      some ((((m.bitmap.getD (b >>> m.log_sz) 0) >>> (b &&& m.mask)) &&& 1) == 1) := by
  unfold Bitmap.is_set
  rw [if_pos hb]

theorem is_set_true_iff (m : Bitmap) (b : Nat) (hb : b < m.rounded_size) :
    m.is_set b = some true ↔
      ((m.bitmap.getD (b >>> m.log_sz) 0) >>> (b &&& m.mask)) &&& 1 ≠ 0 := by
  rw [is_set_eq_read m b hb]
  have hx : ((m.bitmap.getD (b >>> m.log_sz) 0) >>> (b &&& m.mask)) &&& 1 ≤ 1 :=
    Nat.and_le_right
  generalize ((m.bitmap.getD (b >>> m.log_sz) 0) >>> (b &&& m.mask)) &&& 1 = x at hx ⊢
  constructor
  · intro h h0
    subst h0
    simp at h
  · intro h
    have hx1 : x = 1 := by omega
    subst hx1
    rfl

theorem is_set_false_iff (m : Bitmap) (b : Nat) (hb : b < m.rounded_size) :
    m.is_set b = some false ↔
      ((m.bitmap.getD (b >>> m.log_sz) 0) >>> (b &&& m.mask)) &&& 1 = 0 := by
  rw [is_set_eq_read m b hb]
  have hx : ((m.bitmap.getD (b >>> m.log_sz) 0) >>> (b &&& m.mask)) &&& 1 ≤ 1 :=
    Nat.and_le_right
  generalize ((m.bitmap.getD (b >>> m.log_sz) 0) >>> (b &&& m.mask)) &&& 1 = x at hx ⊢
  constructor
  · intro h
    have h1 : (x == 1) = false := by injection h
    have : x ≠ 1 := by
      intro h0
      subst h0
      simp at h1
    omega
  · intro h
    subst h
    rfl

theorem scanFree_some (m : Bitmap) : ∀ cnt start i, m.scanFree start cnt = some i →
    start ≤ i ∧ i < start + cnt ∧
    ((m.bitmap.getD (i >>> m.log_sz) 0) >>> (i &&& m.mask)) &&& 1 = 0 ∧
    ∀ j, start ≤ j → j < i →
      ((m.bitmap.getD (j >>> m.log_sz) 0) >>> (j &&& m.mask)) &&& 1 ≠ 0 := by
  intro cnt
  induction cnt with
  | zero =>
    intro start i h
    simp [Bitmap.scanFree] at h
  | succ cnt ih =>
    intro start i h
    rw [Bitmap.scanFree] at h
    split at h
    · cases h
      refine ⟨Nat.le_refl _, by omega, by assumption, ?_⟩
      intro j hj1 hj2
      omega
    · obtain ⟨ha, hb, hc, hd⟩ := ih (start + 1) i h
      refine ⟨by omega, by omega, hc, ?_⟩
      intro j hj1 hj2
      rcases Nat.eq_or_lt_of_le hj1 with rfl | hlt
      · assumption
      · exact hd j hlt hj2

theorem scanFree_none (m : Bitmap) : ∀ cnt start, m.scanFree start cnt = none ↔
    ∀ j, start ≤ j → j < start + cnt →
      ((m.bitmap.getD (j >>> m.log_sz) 0) >>> (j &&& m.mask)) &&& 1 ≠ 0 := by
  intro cnt
  induction cnt with
  | zero =>
    intro start
    simp [Bitmap.scanFree]
    intro j hj1 hj2
    omega
  | succ cnt ih =>
    intro start
    rw [Bitmap.scanFree]
    split
    next hfree =>
      constructor
      · intro h
        simp at h
      · intro hall
        exact absurd hfree (hall start (Nat.le_refl _) (by omega))
    next hfree =>
      rw [ih (start + 1)]
      constructor
      · intro hall j hj1 hj2
        rcases Nat.eq_or_lt_of_le hj1 with rfl | hlt
        · assumption
        · exact hall j hlt (by omega)
      · intro hall j hj1 hj2
        exact hall j (by omega) (by omega)

theorem bit_size_eq (m : Bitmap) : m.bit_size = m.rounded_size := rfl

theorem words_ceil (n : Nat) :
    n / 64 + (if n &&& 63 ≠ 0 then 1 else 0) = (n + 63) / 64 := by
  simp only [land63_eq_mod]
  by_cases h : n % 64 = 0 <;> simp [h] <;> omega

/-- The word count computed by `new` (length of the allocated vector). -/
theorem size_new (s : Nat) : (Bitmap.new s).size =
    ((Bitmap.new s).rounded_size >>> 6) +
      (if (Bitmap.new s).rounded_size &&& 63 ≠ 0 then 1 else 0) := by
  simp [Bitmap.new, Bitmap.size, List.length_replicate]

/-- Successful `set_bit` produces exactly the one-word update. -/
theorem set_bit_some (m : Bitmap) (i : Nat) (hi : i < m.rounded_size) :
    m.set_bit i = some { m with bitmap :=
      (m.bitmap.set (i >>> m.log_sz)
        ((m.bitmap.getD (i >>> m.log_sz) 0) ||| ((1 <<< (i &&& m.mask)) % 2 ^ 64))) } := by
  unfold Bitmap.set_bit
  rw [if_pos hi]

/-- Successful `unset_bit` produces exactly the one-word update. -/
theorem unset_bit_some (m : Bitmap) (i : Nat) (hi : i < m.rounded_size) :
    m.unset_bit i = some { m with bitmap :=
      (m.bitmap.set (i >>> m.log_sz)
        ((m.bitmap.getD (i >>> m.log_sz) 0) &&&
          ((2 ^ 64 - 1) ^^^ ((1 <<< (i &&& m.mask)) % 2 ^ 64)))) } := by
  unfold Bitmap.unset_bit
  rw [if_pos hi]

theorem testBit_ones64 (off : Nat) (h : off < 64) :
    Nat.testBit (2 ^ 64 - 1) off = true := by
  rw [Nat.testBit_two_pow_sub_one]
  simp [h]

/-! ## Word-level effect of the bit operations -/

theorem set_word_testBit_self (w off : Nat) : (w ||| 2 ^ off).testBit off = true := by
  simp [Nat.testBit_or, Nat.testBit_two_pow_self]

theorem unset_word_testBit_self (w off : Nat) (h : off < 64) :
    (w &&& ((2 ^ 64 - 1) ^^^ 2 ^ off)).testBit off = false := by
  rw [Nat.testBit_and, Nat.testBit_xor, testBit_ones64 off h, Nat.testBit_two_pow_self]
  simp

theorem set_word_testBit_ne (w offi offj : Nat) (h : offi ≠ offj) :
    (w ||| 2 ^ offi).testBit offj = w.testBit offj := by
  simp [Nat.testBit_or, Nat.testBit_two_pow_of_ne h]

theorem unset_word_testBit_ne (w offi offj : Nat) (hj : offj < 64) (h : offi ≠ offj) :
    (w &&& ((2 ^ 64 - 1) ^^^ 2 ^ offi)).testBit offj = w.testBit offj := by
  rw [Nat.testBit_and, Nat.testBit_xor, testBit_ones64 offj hj,
    Nat.testBit_two_pow_of_ne h]
  simp

theorem read_eq_of_testBit_eq (v w off : Nat) (h : v.testBit off = w.testBit off) :
    (v >>> off) &&& 1 = (w >>> off) &&& 1 := by
  have h1 := read_eq_testBit v off
  have h2 := read_eq_testBit w off
  have hv : (v >>> off) &&& 1 ≤ 1 := Nat.and_le_right
  have hw : (w >>> off) &&& 1 ≤ 1 := Nat.and_le_right
  rw [← h1, ← h2] at h
  rcases Nat.le_one_iff_eq_zero_or_eq_one.mp hv with hv0 | hv0 <;>
    rcases Nat.le_one_iff_eq_zero_or_eq_one.mp hw with hw0 | hw0 <;>
      simp [hv0, hw0] at h ⊢

/-- Setting the same bit pattern into the same word twice collapses. -/
theorem double_or (l : List Nat) (idx p : Nat) :
    (l.set idx (l.getD idx 0 ||| p)).set idx
      ((l.set idx (l.getD idx 0 ||| p)).getD idx 0 ||| p) =
    l.set idx (l.getD idx 0 ||| p) := by
  by_cases hlen : idx < l.length
  · rw [getD_set_self _ _ _ hlen, List.set_set, Nat.or_assoc, Nat.or_self]
  · simp [List.set_eq_of_length_le (Nat.le_of_not_lt hlen)]

/-- Clearing the same bit pattern from the same word twice collapses. -/
theorem double_and (l : List Nat) (idx q : Nat) :
    (l.set idx (l.getD idx 0 &&& q)).set idx
      ((l.set idx (l.getD idx 0 &&& q)).getD idx 0 &&& q) =
    l.set idx (l.getD idx 0 &&& q) := by
  by_cases hlen : idx < l.length
  · rw [getD_set_self _ _ _ hlen, List.set_set, Nat.and_assoc, Nat.and_self]
  · simp [List.set_eq_of_length_le (Nat.le_of_not_lt hlen)]

/-- Reading any bit of a one-word update through `is_set` agrees with the
original whenever the raw reads agree. -/
theorem is_set_frame_general (m : Bitmap) (idx v j : Nat) (hj : j < m.rounded_size)
    (hread : (((m.bitmap.set idx v).getD (j >>> m.log_sz) 0) >>> (j &&& m.mask)) &&& 1
      = ((m.bitmap.getD (j >>> m.log_sz) 0) >>> (j &&& m.mask)) &&& 1) :
    Bitmap.is_set { m with bitmap := (m.bitmap.set idx v) } j = m.is_set j := by
  rw [is_set_eq_read { m with bitmap := (m.bitmap.set idx v) } j hj,
    is_set_eq_read m j hj]
  show some (((((m.bitmap.set idx v).getD (j >>> m.log_sz) 0) >>> (j &&& m.mask)) &&& 1) == 1)
     = some ((((m.bitmap.getD (j >>> m.log_sz) 0) >>> (j &&& m.mask)) &&& 1) == 1)
  rw [hread]

theorem size_after_update (m : Bitmap) (idx v : Nat) :
    Bitmap.size { m with bitmap := (m.bitmap.set idx v) } = m.size := by
  show (m.bitmap.set idx v).length = m.bitmap.length
  exact List.length_set _ _ _

/-- The raw read of bit `j ≠ i` is unchanged by a one-word update at `i`'s
word, provided the new word value agrees with the old one on every in-word
offset other than `i`'s. -/
theorem read_after_update (m : Bitmap) (hlog : m.log_sz = 6) (hmask : m.mask = 63)
    (i j v : Nat) (hidx : i >>> m.log_sz < m.bitmap.length) (hne : j ≠ i)
    (hv : ∀ off, off < 64 → (i &&& m.mask) ≠ off →
      v.testBit off = (m.bitmap.getD (i >>> m.log_sz) 0).testBit off) :
    (((m.bitmap.set (i >>> m.log_sz) v).getD (j >>> m.log_sz) 0) >>> (j &&& m.mask)) &&& 1
      = ((m.bitmap.getD (j >>> m.log_sz) 0) >>> (j &&& m.mask)) &&& 1 := by
  by_cases hk : j >>> m.log_sz = i >>> m.log_sz
  · rw [hk, getD_set_self _ _ _ hidx]
    apply read_eq_of_testBit_eq
    apply hv
    · rw [hmask]
      exact land63_lt j
    · rw [hmask]
      rw [hlog] at hk
      have hdi := bit_decomp i
      have hdj := bit_decomp j
      intro heq
      apply hne
      omega
  · rw [getD_set_ne _ _ _ _ (fun he => hk he.symm)]

/-! ## Claim theorems -/

/-- Claim C1: the spec says `bit_size()` after `new(s)` is the smallest power
of two that is ≥ max(s, 64).  The code's `roundup_pow_of_two` stops its
bit-fill at `x >> 16` (the `x |= x >> 32` step for a 64-bit `usize` is
missing), so `new(2^32 + 1)` yields `bit_size() = 2^33 - 1`, which is not a
power of two at all (the spec value would be `2^33`). -/
theorem claimC1_counterexample :
    (Bitmap.new (2 ^ 32 + 1)).bit_size = 2 ^ 33 - 1 ∧
    ∀ k : Nat, (Bitmap.new (2 ^ 32 + 1)).bit_size ≠ 2 ^ k := by
  have hval : (Bitmap.new (2 ^ 32 + 1)).bit_size = 2 ^ 33 - 1 := by decide
  refine ⟨hval, ?_⟩
  intro k hk
  rw [hval] at hk
  rcases k with _ | k
  · norm_num at hk
  · have h2 : (2 : Nat) ^ (k + 1) % 2 = 0 := by
      rw [pow_succ]
      omega
    rw [← hk] at h2
    norm_num at h2

/-- Claim C2: `find_free_slot()` returns the smallest unset index in
`[start_bit, bit_size())`, and `none` exactly when every bit of that range
is set; a returned index is never `< start_bit` nor `≥ bit_size()`. -/
theorem claimC2_find_free_slot (m : Bitmap) :
    (∀ i, m.find_free_slot = some i →
       m.start_bit ≤ i ∧ i < m.bit_size ∧ m.is_set i = some false ∧
       ∀ j, m.start_bit ≤ j → j < i → m.is_set j = some true) ∧
    (m.find_free_slot = none ↔
       ∀ j, m.start_bit ≤ j → j < m.bit_size → m.is_set j = some true) := by
  unfold Bitmap.find_free_slot Bitmap.bit_size
  constructor
  · intro i h
    obtain ⟨ha, hb, hc, hd⟩ :=
      scanFree_some m (m.rounded_size - m.start_bit) m.start_bit i h
    have hi : i < m.rounded_size := by omega
    refine ⟨ha, hi, (is_set_false_iff m i hi).mpr hc, ?_⟩
    intro j hj1 hj2
    exact (is_set_true_iff m j (by omega)).mpr (hd j hj1 hj2)
  · rw [scanFree_none]
    constructor
    · intro hall j hj1 hj2
      exact (is_set_true_iff m j hj2).mpr (hall j hj1 (by omega))
    · intro hall j hj1 hj2
      have hj : j < m.rounded_size := by omega
      exact (is_set_true_iff m j hj).mp (hall j hj1 hj)

/-- Witness for C2, at the bitmap `new 64` after `set_bit 0` (word list
`[1]`): `find_free_slot` returns `some 1` and bit `1` is indeed unset. -/
theorem claimC2_witness : (⟨64, 63, 6, [1], 0⟩ : Bitmap).is_set 1 = some false :=
  ((claimC2_find_free_slot ⟨64, 63, 6, [1], 0⟩).1 1 (by decide)).2.2.1

/-- Claim C4: the spec claims `bit_size()` is always a power of two and
`size() * 64 = bit_size()` exactly.  At `s = 2^32 + 1` the rounding bug
(see C1) gives `bit_size() = 2^33 - 1`, and the constructor then allocates
`2^27` words while `bit_size() / 64 = 2^27 - 1`, so `size()` is not
`bit_size() / 64`. -/
theorem claimC4_counterexample :
    (Bitmap.new (2 ^ 32 + 1)).size ≠ (Bitmap.new (2 ^ 32 + 1)).bit_size / 64 := by
  rw [size_new]
  decide

/-- Claim C5: the spec claims every bit in `[0, r)` of
`new_with_reserved(s, r)` remains settable.  For `s = 2^63 + 2^31 + 1`
(and `r = 1 < s`) the wrapping `+ 1` at the end of `roundup_pow_of_two`
overflows to `0`, so the constructed bitmap has `bit_size() = 0` and
`set_bit(0)` hits the `assert!(bit < self.rounded_size)` failure. -/
theorem claimC5_counterexample :
    Bitmap.new_with_reserved (2 ^ 63 + 2 ^ 31 + 1) 1 ≠ none ∧
    (Bitmap.new_with_reserved (2 ^ 63 + 2 ^ 31 + 1) 1).bind
      (fun m => m.set_bit 0) = none ∧
    (Bitmap.new_with_reserved (2 ^ 63 + 2 ^ 31 + 1) 1).bind
      (fun m => some m.bit_size) = some 0 := by
  refine ⟨?_, ?_, ?_⟩ <;> decide

/-- Claim C6: `set_bit` / `unset_bit` / `is_set` fail fatally exactly when
the index is `≥ bit_size()`, and `new_with_reserved(s, r)` fails fatally
exactly when `r ≥ s` (checked against the pre-rounding `s`); in-range
indices are never altered. -/
theorem claimC6_fatal_iff :
    (∀ (m : Bitmap) (i : Nat),
       (m.set_bit i = none ↔ m.bit_size ≤ i) ∧
       (m.unset_bit i = none ↔ m.bit_size ≤ i) ∧
       (m.is_set i = none ↔ m.bit_size ≤ i)) ∧
    (∀ s r : Nat, Bitmap.new_with_reserved s r = none ↔ s ≤ r) := by
  constructor
  · intro m i
    unfold Bitmap.set_bit Bitmap.unset_bit Bitmap.is_set Bitmap.bit_size
    refine ⟨?_, ?_, ?_⟩ <;> split <;> simp <;> omega
  · intro s r
    unfold Bitmap.new_with_reserved
    split <;> simp <;> omega

/-- Claim C10: for every requested size `s`, the constructor allocates
exactly `⌈bit_size() / 64⌉` words: `size() = (bit_size() + 63) / 64`,
also when the (buggy) rounded capacity is not a multiple of 64. -/
theorem claimC10_size_eq_ceil (s : Nat) :
    (Bitmap.new s).size = ((Bitmap.new s).bit_size + 63) / 64 := by
  rw [bit_size_eq, size_new, shiftRight6_eq_div]
  exact words_ceil (Bitmap.new s).rounded_size

/-- Claim C3: for every well-formed bitmap and valid index `i`, right after
`set_bit(i)` the call `is_set(i)` returns `true`, and right after
`unset_bit(i)` it returns `false`. -/
theorem claimC3_set_unset_then_test (m : Bitmap) (hWF : m.WF) (i : Nat)
    (hi : i < m.bit_size) :
    (∀ m', m.set_bit i = some m' → m'.is_set i = some true) ∧
    (∀ m', m.unset_bit i = some m' → m'.is_set i = some false) := by
  obtain ⟨hlog, hmask, hlen⟩ := hWF
  rw [bit_size_eq] at hi
  have hidx : i >>> m.log_sz < m.bitmap.length :=
    word_index_lt m ⟨hlog, hmask, hlen⟩ i hi
  have hoff : i &&& m.mask < 64 := by
    rw [hmask]
    exact land63_lt i
  have hpow : (1 <<< (i &&& m.mask)) % 2 ^ 64 = 2 ^ (i &&& m.mask) :=
    shift_one_mod _ hoff
  constructor
  · intro m' h
    rw [set_bit_some m i hi, Option.some_inj] at h
    subst h
    refine (is_set_true_iff ?_ i ?_).mpr ?_
    · exact hi
    rw [read_ne_zero_iff]
    show ((m.bitmap.set (i >>> m.log_sz)
      ((m.bitmap.getD (i >>> m.log_sz) 0) ||| ((1 <<< (i &&& m.mask)) % 2 ^ 64))).getD
        (i >>> m.log_sz) 0).testBit (i &&& m.mask) = true
    rw [getD_set_self _ _ _ hidx, hpow]
    exact set_word_testBit_self _ _
  · intro m' h
    rw [unset_bit_some m i hi, Option.some_inj] at h
    subst h
    refine (is_set_false_iff ?_ i ?_).mpr ?_
    · exact hi
    show (((m.bitmap.set (i >>> m.log_sz)
        ((m.bitmap.getD (i >>> m.log_sz) 0) &&&
          ((2 ^ 64 - 1) ^^^ ((1 <<< (i &&& m.mask)) % 2 ^ 64)))).getD
            (i >>> m.log_sz) 0) >>> (i &&& m.mask)) &&& 1 = 0
    rw [getD_set_self _ _ _ hidx, hpow]
    have hfalse :=
      unset_word_testBit_self (m.bitmap.getD (i >>> m.log_sz) 0) (i &&& m.mask) hoff
    by_contra hne2
    exact absurd ((read_ne_zero_iff _ _).mp hne2) (by rw [hfalse]; simp)

/-- Witness for C3: starting from `new 64` (word list `[0]`), `set_bit 0`
yields the word list `[1]`, on which `is_set 0` is `true`. -/
theorem claimC3_witness : (⟨64, 63, 6, [1], 0⟩ : Bitmap).is_set 0 = some true :=
  (claimC3_set_unset_then_test ⟨64, 63, 6, [0], 0⟩ (by decide) 0 (by decide)).1
    ⟨64, 63, 6, [1], 0⟩ (by decide)

/-- Claim C7: `set_bit(i)` and `unset_bit(i)` change at most the single
backing word holding bit `i`: every other valid bit reads the same through
`is_set`, every other word is untouched, and `bit_size`, `size`,
`start_bit` are unchanged. -/
theorem claimC7_single_word_frame (m : Bitmap) (hWF : m.WF) (i j : Nat)
    (hi : i < m.bit_size) (hj : j < m.bit_size) (hne : j ≠ i) :
    (∀ m', m.set_bit i = some m' →
       m'.is_set j = m.is_set j ∧ m'.bit_size = m.bit_size ∧ m'.size = m.size ∧
       m'.start_bit = m.start_bit ∧
       ∀ k, k ≠ i >>> 6 → m'.bitmap.getD k 0 = m.bitmap.getD k 0) ∧
    (∀ m', m.unset_bit i = some m' →
       m'.is_set j = m.is_set j ∧ m'.bit_size = m.bit_size ∧ m'.size = m.size ∧
       m'.start_bit = m.start_bit ∧
       ∀ k, k ≠ i >>> 6 → m'.bitmap.getD k 0 = m.bitmap.getD k 0) := by
  obtain ⟨hlog, hmask, hlen⟩ := hWF
  rw [bit_size_eq] at hi hj
  have hidx : i >>> m.log_sz < m.bitmap.length :=
    word_index_lt m ⟨hlog, hmask, hlen⟩ i hi
  have hpow : (1 <<< (i &&& m.mask)) % 2 ^ 64 = 2 ^ (i &&& m.mask) := by
    apply shift_one_mod
    rw [hmask]
    exact land63_lt i
  constructor
  · intro m' h
    rw [set_bit_some m i hi, Option.some_inj] at h
    subst h
    refine ⟨?_, rfl, size_after_update m _ _, rfl, ?_⟩
    · apply is_set_frame_general m _ _ j hj
      apply read_after_update m hlog hmask i j _ hidx hne
      intro off hofflt hoffne
      rw [hpow]
      exact set_word_testBit_ne _ _ _ hoffne
    · intro k hk
      exact getD_set_ne m.bitmap (i >>> m.log_sz) k _
        (by rw [hlog]; exact Ne.symm hk)
  · intro m' h
    rw [unset_bit_some m i hi, Option.some_inj] at h
    subst h
    refine ⟨?_, rfl, size_after_update m _ _, rfl, ?_⟩
    · apply is_set_frame_general m _ _ j hj
      apply read_after_update m hlog hmask i j _ hidx hne
      intro off hofflt hoffne
      rw [hpow]
      exact unset_word_testBit_ne _ _ _ hofflt hoffne
    · intro k hk
      exact getD_set_ne m.bitmap (i >>> m.log_sz) k _
        (by rw [hlog]; exact Ne.symm hk)

/-- Witness for C7: on `new 64` (word list `[0]`), `set_bit 0` gives `[1]`
and leaves bit `1` reading the same as before. -/
theorem claimC7_witness :
    (⟨64, 63, 6, [1], 0⟩ : Bitmap).is_set 1 = (⟨64, 63, 6, [0], 0⟩ : Bitmap).is_set 1 :=
  ((claimC7_single_word_frame ⟨64, 63, 6, [0], 0⟩ (by decide) 0 1 (by decide)
    (by decide) (by decide)).1 ⟨64, 63, 6, [1], 0⟩ (by decide)).1

/-- Claim C8: `set_bit(i)` twice in a row yields exactly the state of doing
it once, and likewise for `unset_bit(i)` (hence every observable —
`is_set`, `bit_size`, `size`, `find_free_slot` — agrees). -/
theorem claimC8_idempotent (m : Bitmap) (i : Nat) :
    (∀ m', m.set_bit i = some m' → m'.set_bit i = some m') ∧
    (∀ m', m.unset_bit i = some m' → m'.unset_bit i = some m') := by
  constructor
  · intro m' h
    have hi : i < m.rounded_size := by
      by_contra hnot
      unfold Bitmap.set_bit at h
      rw [if_neg hnot] at h
      exact Option.noConfusion h
    rw [set_bit_some m i hi, Option.some_inj] at h
    subst h
    simp only [Bitmap.set_bit]
    rw [if_pos hi, Option.some_inj]
    exact congrArg (fun l => Bitmap.mk m.rounded_size m.mask m.log_sz l m.start_bit)
      (double_or m.bitmap (i >>> m.log_sz) ((1 <<< (i &&& m.mask)) % 2 ^ 64))
  · intro m' h
    have hi : i < m.rounded_size := by
      by_contra hnot
      unfold Bitmap.unset_bit at h
      rw [if_neg hnot] at h
      exact Option.noConfusion h
    rw [unset_bit_some m i hi, Option.some_inj] at h
    subst h
    simp only [Bitmap.unset_bit]
    rw [if_pos hi, Option.some_inj]
    exact congrArg (fun l => Bitmap.mk m.rounded_size m.mask m.log_sz l m.start_bit)
      (double_and m.bitmap (i >>> m.log_sz)
        ((2 ^ 64 - 1) ^^^ ((1 <<< (i &&& m.mask)) % 2 ^ 64)))

/-- Witness for C8: setting bit 0 of the word list `[1]` (reached by a
first `set_bit 0` on `new 64`) returns the very same state. -/
theorem claimC8_witness :
    (⟨64, 63, 6, [1], 0⟩ : Bitmap).set_bit 0 = some ⟨64, 63, 6, [1], 0⟩ :=
  (claimC8_idempotent ⟨64, 63, 6, [0], 0⟩ 0).1 ⟨64, 63, 6, [1], 0⟩ (by decide)

/-- Claim C9: in every bitmap reachable through the public API, the word
index `i >> 6` of a valid bit index `i < bit_size()` is strictly below
`size()`, so the backing-vector access of `set_bit` / `unset_bit` /
`is_set` / `find_free_slot` is in bounds. -/
theorem claimC9_word_index_in_bounds (m : Bitmap) (h : Bitmap.Reached m) (i : Nat)
    (hi : i < m.bit_size) : i >>> m.log_sz < m.size ∧ i >>> 6 < m.size := by
  have hWF := reached_WF m h
  rw [bit_size_eq] at hi
  have h1 := word_index_lt m hWF i hi
  refine ⟨h1, ?_⟩
  rw [← hWF.1]
  exact h1

/-- Witness for C9, at `new 64` and bit index `0`. -/
theorem claimC9_witness :
    0 >>> (Bitmap.new 64).log_sz < (Bitmap.new 64).size ∧ 0 >>> 6 < (Bitmap.new 64).size :=
  claimC9_word_index_in_bounds (Bitmap.new 64) (Bitmap.Reached.new 64) 0 (by decide)

/-- Witness for C6: on `new 64` (capacity 64), `set_bit 64` is the fatal
branch, and `new_with_reserved 64 64` is rejected. -/
theorem claimC6_witness :
    (Bitmap.new 64).set_bit 64 = none ∧ Bitmap.new_with_reserved 64 64 = none :=
  ⟨((claimC6_fatal_iff.1 (Bitmap.new 64) 64).1).mpr (by decide),
   (claimC6_fatal_iff.2 64 64).mpr (by decide)⟩

/-- Witness for C10, at `s = 64`. -/
theorem claimC10_witness :
    (Bitmap.new 64).size = ((Bitmap.new 64).bit_size + 63) / 64 :=
  claimC10_size_eq_ceil 64

/-! ## Concrete scenarios from the crate's test module -/

/-- Test scenarios `test_bitmap1`, `test_bitmap2`, `test_bitmap3`:
capacity rounding and word counts for small sizes, plus the size-0 clamp. -/
theorem scenario_basic_sizes :
    (Bitmap.new 64).bit_size = 64 ∧ (Bitmap.new 64).size = 1 ∧
    (Bitmap.new 20).bit_size = 64 ∧ (Bitmap.new 20).size = 1 ∧
    (Bitmap.new 0).bit_size = 64 ∧
    (Bitmap.new 65).bit_size = 128 ∧ (Bitmap.new 65).size = 2 := by
  refine ⟨?_, ?_, ?_, ?_, ?_, ?_, ?_⟩ <;> decide

/-- Test scenario `test_bitmap1`: after `set_bit 0` on `new 64`,
`find_free_slot` returns `some 1`. -/
theorem scenario_set_find :
    ((Bitmap.new 64).set_bit 0).bind (fun m => m.find_free_slot) = some 1 := by
  decide

/-- Test scenario `test_bitmap4` (the reservation feature, also the literal
scenario of claim C5): `new_with_reserved 65 20` has capacity 128 over two
words, and after `set_bit 0` the search starts at the reserved boundary,
returning `some 20`. -/
theorem scenario_reserved :
    (Bitmap.new_with_reserved 65 20).bind
      (fun m => some (m.bit_size, m.size)) = some (128, 2) ∧
    ((Bitmap.new_with_reserved 65 20).bind (fun m => m.set_bit 0)).bind
      (fun m => m.find_free_slot) = some 20 := by
  refine ⟨?_, ?_⟩ <;> decide

/-- Test scenario `test_bitmap5`: a set/set/unset sequence on `new 65` and
the free slot after each step. -/
theorem scenario_sequence :
    ((Bitmap.new 65).set_bit 0).bind (fun m => m.find_free_slot) = some 1 ∧
    (((Bitmap.new 65).set_bit 0).bind (fun m => m.set_bit 1)).bind
      (fun m => m.find_free_slot) = some 2 ∧
    ((((Bitmap.new 65).set_bit 0).bind (fun m => m.set_bit 1)).bind
      (fun m => m.unset_bit 0)).bind (fun m => m.find_free_slot) = some 0 := by
  refine ⟨?_, ?_, ?_⟩ <;> decide

/-- Spec §8, scenario 6: a fully set single-word bitmap (all 64 bits of a
capacity-64 bitmap set, word value `2 ^ 64 - 1`) has no free slot. -/
theorem scenario_full :
    (⟨64, 63, 6, [2 ^ 64 - 1], 0⟩ : Bitmap).find_free_slot = none := by
  decide
